import Mathlib

set_option linter.unusedSectionVars false
set_option linter.unusedVariables false

/-!
Verification of the TTL/LRU memoizing cache decorator
(`ttl_cache` in `DZIEN_2/advanced_decorators.py`).

The cache is a Python `OrderedDict` mapping cache keys to pairs
`(insertion_time, value)`; iteration order is recency order with the
least-recently-used entry first.  We embed it as a list of `Entry`
records, front = least-recently-used, back = most-recently-used.

Times are modelled as rationals (`ℚ`), standing in for Python floats;
the clock value `now` is passed to each call explicitly, mirroring the
injected `time_fn`.

The wrapped computation is modelled per call by an `Except` value `r`:
what `func(*args, **kwargs)` would return (or raise) if invoked on this
call.  The `computed` flag of an `Outcome` records whether the wrapped
computation was actually invoked (`true` on the miss path, `false` on
the hit path and on a key error).

An argument tuple that is unusable as a mapping key (unhashable in
Python) raises at the `key in cache` membership test, which in the
source happens after the expiry sweep; the `usable` flag models
hashability of the key, and the error path keeps the post-sweep cache,
exactly as the in-place mutation does in the source.
-/

namespace TTLCache

/-- One cache entry: the key, the insertion timestamp recorded at the
time of the storing miss, and the stored value.  Mirrors one binding
`key ↦ (t_inserted, value)` of the `OrderedDict`. -/
structure Entry (κ α : Type) where
  key : κ
  tIns : ℚ
  val : α
deriving DecidableEq, Repr

/-- Configuration captured by the decorator closure: `ttl` and
`maxsize`.  `maxsize` is an integer as in Python (nothing stops a
caller from passing zero or a negative number). -/
structure Config where
  ttl : ℚ
  maxsize : ℤ
deriving DecidableEq, Repr

/-- Embedding of the `ttl_cache(*, ttl, maxsize, ...)` decorator
factory itself: it only records the configuration in the closure.  The
source performs no validation of `ttl` or `maxsize`. -/
def ttl_cache (ttl : ℚ) (maxsize : ℤ) : Config :=
  ⟨ttl, maxsize⟩

/-- Errors a call can raise: `keyErr` models the `TypeError` raised by
`key in cache` on an unhashable key; `fnErr e` propagates an error
raised by the wrapped computation. -/
inductive CallErr (ε : Type) where
  | keyErr : CallErr ε
  | fnErr (e : ε) : CallErr ε
deriving DecidableEq, Repr

/-- Result of one call through the wrapper: the returned value or
error, whether the wrapped computation was invoked, and the cache state
after the call. -/
structure Outcome (κ α ε : Type) where
  result : Except (CallErr ε) α
  computed : Bool
  cache : List (Entry κ α)

variable {κ α ε : Type} [DecidableEq κ]

/-- The expiry test of the sweep: `now - t_inserted > ttl`. -/
def expired (ttl now : ℚ) (e : Entry κ α) : Bool :=
  decide (now - e.tIns > ttl)

/-- The sweep: the source scans entries in recency order collecting
keys while `now - t_inserted > ttl` holds, breaks at the first
non-expired entry, and pops the collected keys — i.e. it drops the
maximal expired prefix. -/
def sweep (ttl now : ℚ) (c : List (Entry κ α)) : List (Entry κ α) :=
  c.dropWhile (expired ttl now)

/-- Lookup of `key` in the ordered mapping (`key in cache` plus the
subsequent read). -/
def findEntry (k : κ) (c : List (Entry κ α)) : Option (Entry κ α) :=
  c.find? (fun e => decide (e.key = k))

/-- Removal of the binding of `key` (`cache.pop(key)`); keys are unique
in a dict, so filtering is exact. -/
def eraseKey (k : κ) (c : List (Entry κ α)) : List (Entry κ α) :=
  c.filter (fun e => !decide (e.key = k))

/-- Embedding of `wrapper(*args, **kwargs)`.  `usable` is whether the
key built from the arguments is usable as a dict key, `k` the key, `r`
what the wrapped computation would return or raise on this call, `now`
the value of `time_fn()` at the start of the call, `c` the cache. -/
def wrapper (cfg : Config) (usable : Bool) (k : κ) (r : Except ε α) (now : ℚ)
    (c : List (Entry κ α)) : Outcome κ α ε :=
  let c1 := sweep cfg.ttl now c
  if usable then
    match findEntry k c1 with
    | some e =>
        ⟨Except.ok e.val, false, eraseKey k c1 ++ [⟨k, e.tIns, e.val⟩]⟩
    | none =>
        match r with
        | Except.error err => ⟨Except.error (CallErr.fnErr err), true, c1⟩
        | Except.ok v =>
            let c2 := c1 ++ [⟨k, now, v⟩]
            ⟨Except.ok v, true,
              if (c2.length : ℤ) > cfg.maxsize then c2.drop 1 else c2⟩
  else
    ⟨Except.error CallErr.keyErr, false, c1⟩

/-- Embedding of the attached `cache_clear()` helper. -/
def cache_clear (_c : List (Entry κ α)) : List (Entry κ α) :=
  []

/-- Snapshot returned by the attached `cache_info()` helper. -/
structure CacheInfo (κ : Type) where
  size : ℕ
  maxsize : ℤ
  ttl : ℚ
  items : List κ
deriving DecidableEq, Repr

/-- Embedding of the attached `cache_info()` helper; it reads the cache
without mutating it. -/
def cache_info (cfg : Config) (c : List (Entry κ α)) : CacheInfo κ :=
  ⟨c.length, cfg.maxsize, cfg.ttl, c.map Entry.key⟩

/-- A public operation on the cache: a call through the wrapper (with
the clock value observed at its start), `cache_clear`, or
`cache_info`. -/
inductive Op (κ α ε : Type) where
  | call (usable : Bool) (k : κ) (r : Except ε α) (now : ℚ) : Op κ α ε
  | clear : Op κ α ε
  | stats : Op κ α ε

/-- Effect of one public operation on the cache state. -/
def applyOp (cfg : Config) : Op κ α ε → List (Entry κ α) → List (Entry κ α)
  | Op.call u k r now, c => (wrapper cfg u k r now c).cache
  | Op.clear, c => cache_clear c
  | Op.stats, c => ((cache_info cfg c : CacheInfo κ), c).2

/-- Run a sequence of public operations from a starting cache state. -/
def runOps (cfg : Config) (ops : List (Op κ α ε)) (c : List (Entry κ α)) :
    List (Entry κ α) :=
  ops.foldl (fun acc op => applyOp cfg op acc) c

/-- Run a sequence of calls, all at clock time 0 with usable keys, the
computation for key `k` returning `fv k`; models inserting or touching
a sequence of keys with no expirations. -/
def runCalls (cfg : Config) (fv : κ → α) (ks : List κ)
    (c : List (Entry κ α)) : List (Entry κ α) :=
  ks.foldl
    (fun acc k =>
      (@wrapper κ α Unit _ cfg true k (Except.ok (fv k)) 0 acc).cache) c

/-- All keys of the cache are distinct — the invariant a dict provides
by construction. -/
def nodupKeys (c : List (Entry κ α)) : Prop :=
  (c.map Entry.key).Nodup

instance (c : List (Entry κ α)) : Decidable (nodupKeys c) := by
  unfold nodupKeys; infer_instance

/-- Python runtime types occurring among the modelled argument
values. -/
inductive PyTy where
  | intTy : PyTy
  | floatTy : PyTy
  | strTy : PyTy
  | tupleTy : PyTy
  | typeTy : PyTy
deriving DecidableEq, Repr

/-- A model of the Python values used as cache-key parts: ints, floats
(modelled as rationals), strings, pairs (2-tuples, the shape used both
for keyword items in the key and for tuple-valued arguments), and type
objects (as appended by typed=True). -/
inductive PyVal where
  | int (n : ℤ) : PyVal
  | float (q : ℚ) : PyVal
  | str (s : String) : PyVal
  | pair (a b : PyVal) : PyVal
  | ty (t : PyTy) : PyVal
deriving DecidableEq, Repr

/-- The runtime type of a modelled value (`type(x)` in Python). -/
def typeOf : PyVal → PyTy
  | PyVal.int _ => PyTy.intTy
  | PyVal.float _ => PyTy.floatTy
  | PyVal.str _ => PyTy.strTy
  | PyVal.pair _ _ => PyTy.tupleTy
  | PyVal.ty _ => PyTy.typeTy

/-- Python equality (`==`) on the modelled values, the equality the
dict applies to keys: numeric values compare by value across int/float
(so `1 == 1.0`), tuples compare element-wise, and other values compare
within their own constructor. -/
def pyEq : PyVal → PyVal → Bool
  | PyVal.int m, PyVal.int n => decide (m = n)
  | PyVal.int m, PyVal.float q => decide ((m : ℚ) = q)
  | PyVal.float q, PyVal.int m => decide (q = (m : ℚ))
  | PyVal.float p, PyVal.float q => decide (p = q)
  | PyVal.str s, PyVal.str t => decide (s = t)
  | PyVal.pair a b, PyVal.pair c d => pyEq a c && pyEq b d
  | PyVal.ty s, PyVal.ty t => decide (s = t)
  | _, _ => false

/-- Insert one keyword item into a name-sorted list.  Python's
`sorted(kwargs.items())` compares tuples lexicographically; keyword
names are distinct (they are dict keys), so only the names decide the
order. -/
def insertByName (p : String × PyVal) :
    List (String × PyVal) → List (String × PyVal)
  | [] => [p]
  | q :: rest =>
      if p.1 ≤ q.1 then p :: q :: rest else q :: insertByName p rest

/-- Name-ascending sort of the keyword items
(`sorted(kwargs.items())`). -/
def sortKw : List (String × PyVal) → List (String × PyVal)
  | [] => []
  | p :: rest => insertByName p (sortKw rest)

/-- Embedding of `make_key`: the positional arguments in call order,
then the keyword items sorted by name appended as (name, value) pairs,
then — when typed is enabled — the types of the positional arguments
followed by the types of the sorted keyword values. -/
def make_key (typed : Bool) (args : List PyVal)
    (kwargs : List (String × PyVal)) : List PyVal :=
  args
    ++ (sortKw kwargs).map (fun p => PyVal.pair (PyVal.str p.1) p.2)
    ++ (if typed then
          args.map (fun a => PyVal.ty (typeOf a))
            ++ (sortKw kwargs).map (fun p => PyVal.ty (typeOf p.2))
        else [])

/-- Equality of two key tuples as Python compares them: equal length
and element-wise `==`. -/
def keyEq (xs ys : List PyVal) : Bool :=
  decide (xs.length = ys.length)
    && (List.zip xs ys).all (fun p => pyEq p.1 p.2)

/-- Demonstration configuration for the expiry-invariant violation:
ttl 10, maxsize 128 (the default). -/
def demoCfg : Config := ⟨10, 128⟩

/-- First call: miss on key 1 at time 0, computing 11. -/
def demoCall1 : Outcome ℕ ℕ ℕ := wrapper demoCfg true 1 (Except.ok 11) 0 []

/-- Second call: miss on key 2 at time 5, computing 22. -/
def demoCall2 : Outcome ℕ ℕ ℕ :=
  wrapper demoCfg true 2 (Except.ok 22) 5 demoCall1.cache

/-- Third call: hit on key 1 at time 6; the hit moves key 1's entry
behind key 2's younger entry in recency order while keeping its
insertion time 0. -/
def demoCall3 : Outcome ℕ ℕ ℕ :=
  wrapper demoCfg true 1 (Except.ok 99) 6 demoCall2.cache

/-- Fourth call: key 1 again at time 12, when its entry's age is 12,
beyond the ttl of 10. -/
def demoCall4 : Outcome ℕ ℕ ℕ :=
  wrapper demoCfg true 1 (Except.ok 99) 12 demoCall3.cache

/-! ### Basic lemmas about the sweep -/

theorem sweep_nil (ttl now : ℚ) : sweep ttl now ([] : List (Entry κ α)) = [] :=
  rfl

theorem sweep_cons_expired {ttl now : ℚ} {e : Entry κ α} {c : List (Entry κ α)}
    (h : now - e.tIns > ttl) : sweep ttl now (e :: c) = sweep ttl now c := by
  simp [sweep, expired, List.dropWhile_cons, h]

theorem sweep_cons_fresh {ttl now : ℚ} {e : Entry κ α} {c : List (Entry κ α)}
    (h : ¬ now - e.tIns > ttl) : sweep ttl now (e :: c) = e :: c := by
  simp [sweep, expired, List.dropWhile_cons, h]

theorem sweep_eq_self {ttl now : ℚ} {c : List (Entry κ α)}
    (h : ∀ e ∈ c, ¬ now - e.tIns > ttl) : sweep ttl now c = c := by
  induction c with
  | nil => rfl
  | cons e c _ =>
      exact sweep_cons_fresh (h e (by simp))

theorem sweep_eq_nil {ttl now : ℚ} {c : List (Entry κ α)}
    (h : ∀ e ∈ c, now - e.tIns > ttl) : sweep ttl now c = [] := by
  induction c with
  | nil => rfl
  | cons e c ih =>
      rw [sweep_cons_expired (h e (by simp))]
      exact ih fun x hx => h x (by simp [hx])

theorem sweep_sublist (ttl now : ℚ) (c : List (Entry κ α)) :
    List.Sublist (sweep ttl now c) c :=
  List.dropWhile_sublist _

theorem mem_of_mem_sweep {ttl now : ℚ} {e : Entry κ α} {c : List (Entry κ α)}
    (h : e ∈ sweep ttl now c) : e ∈ c :=
  (sweep_sublist ttl now c).subset h

theorem mem_sweep_of_fresh {ttl now : ℚ} {e : Entry κ α} {c : List (Entry κ α)}
    (he : e ∈ c) (hf : ¬ now - e.tIns > ttl) : e ∈ sweep ttl now c := by
  induction c with
  | nil => simp at he
  | cons b c ih =>
      rcases List.mem_cons.mp he with h | h
      · subst h
        rw [sweep_cons_fresh hf]
        simp
      · by_cases hb : now - b.tIns > ttl
        · rw [sweep_cons_expired hb]; exact ih h
        · rw [sweep_cons_fresh hb]; simp [h]

theorem length_sweep_le (ttl now : ℚ) (c : List (Entry κ α)) :
    (sweep ttl now c).length ≤ c.length :=
  (sweep_sublist ttl now c).length_le

theorem nodupKeys_sweep {ttl now : ℚ} {c : List (Entry κ α)}
    (h : nodupKeys c) : nodupKeys (sweep ttl now c) :=
  ((sweep_sublist ttl now c).map Entry.key).nodup h

/-! ### Basic lemmas about lookup and removal -/

theorem findEntry_nil (k : κ) : findEntry k ([] : List (Entry κ α)) = none :=
  rfl

theorem findEntry_cons_self {k : κ} {e : Entry κ α} {c : List (Entry κ α)}
    (h : e.key = k) : findEntry k (e :: c) = some e := by
  simp [findEntry, List.find?_cons, h]

theorem findEntry_cons_ne {k : κ} {e : Entry κ α} {c : List (Entry κ α)}
    (h : e.key ≠ k) : findEntry k (e :: c) = findEntry k c := by
  simp [findEntry, List.find?_cons, h]

theorem findEntry_eq_none {k : κ} {c : List (Entry κ α)} :
    findEntry k c = none ↔ ∀ e ∈ c, e.key ≠ k := by
  simp [findEntry, List.find?_eq_none]

theorem findEntry_some {k : κ} {c : List (Entry κ α)} {e : Entry κ α}
    (h : findEntry k c = some e) : e ∈ c ∧ e.key = k := by
  have hm := List.mem_of_find?_eq_some h
  have hp := List.find?_some h
  exact ⟨hm, by simpa using hp⟩

theorem findEntry_of_mem_nodup {k : κ} {c : List (Entry κ α)} {e : Entry κ α}
    (hnd : nodupKeys c) (he : e ∈ c) (hk : e.key = k) :
    findEntry k c = some e := by
  induction c with
  | nil => simp at he
  | cons b c ih =>
      rcases List.mem_cons.mp he with h | h
      · subst h; exact findEntry_cons_self hk
      · have hb : b.key ≠ k := by
          intro hbk
          have hmem : b.key ∈ c.map Entry.key := by
            rw [hbk, ← hk]
            exact List.mem_map_of_mem Entry.key h
          exact absurd hmem (List.nodup_cons.mp hnd).1
        rw [findEntry_cons_ne hb]
        exact ih (List.nodup_cons.mp hnd).2 h

theorem findEntry_append_none {k : κ} {l₁ l₂ : List (Entry κ α)}
    (h : findEntry k l₁ = none) :
    findEntry k (l₁ ++ l₂) = findEntry k l₂ := by
  induction l₁ with
  | nil => simp
  | cons b l₁ ih =>
      have hb : b.key ≠ k := (findEntry_eq_none.mp h) b (by simp)
      rw [List.cons_append, findEntry_cons_ne hb]
      exact ih (by rw [findEntry_cons_ne hb] at h; exact h)

theorem findEntry_eraseKey (k : κ) (c : List (Entry κ α)) :
    findEntry k (eraseKey k c) = none := by
  rw [findEntry_eq_none]
  intro e he
  have h2 := List.of_mem_filter he
  simpa using h2

theorem length_eraseKey_le (k : κ) (c : List (Entry κ α)) :
    (eraseKey k c).length ≤ c.length :=
  List.length_filter_le _ _

theorem length_eraseKey_lt {k : κ} {c : List (Entry κ α)} {e : Entry κ α}
    (h : findEntry k c = some e) : (eraseKey k c).length < c.length := by
  induction c with
  | nil => simp [findEntry] at h
  | cons b c ih =>
      by_cases hb : b.key = k
      · have hr : eraseKey k (b :: c) = eraseKey k c := by
          simp [eraseKey, List.filter_cons, hb]
        rw [hr]
        have := length_eraseKey_le k c
        simp only [List.length_cons]
        omega
      · rw [findEntry_cons_ne hb] at h
        have hr : eraseKey k (b :: c) = b :: eraseKey k c := by
          simp [eraseKey, List.filter_cons, hb]
        rw [hr]
        simpa using ih h

/-! ### Unfolding lemmas for the wrapper -/

theorem wrapper_keyErr (cfg : Config) (k : κ) (r : Except ε α) (now : ℚ)
    (c : List (Entry κ α)) :
    wrapper cfg false k r now c
      = ⟨Except.error CallErr.keyErr, false, sweep cfg.ttl now c⟩ :=
  rfl

theorem wrapper_hit {cfg : Config} {k : κ} {now : ℚ} {c : List (Entry κ α)}
    {e : Entry κ α} (r : Except ε α)
    (h : findEntry k (sweep cfg.ttl now c) = some e) :
    wrapper cfg true k r now c
      = ⟨Except.ok e.val, false,
          eraseKey k (sweep cfg.ttl now c) ++ [⟨k, e.tIns, e.val⟩]⟩ := by
  simp [wrapper, h]

theorem wrapper_miss_err {cfg : Config} {k : κ} {now : ℚ}
    {c : List (Entry κ α)} (err : ε)
    (h : findEntry k (sweep cfg.ttl now c) = none) :
    wrapper cfg true k (Except.error err) now c
      = ⟨Except.error (CallErr.fnErr err), true, sweep cfg.ttl now c⟩ := by
  simp [wrapper, h]

theorem wrapper_miss_ok {cfg : Config} {k : κ} {now : ℚ}
    {c : List (Entry κ α)} (v : α)
    (h : findEntry k (sweep cfg.ttl now c) = none) :
    wrapper cfg true k (Except.ok v : Except ε α) now c
      = ⟨Except.ok v, true,
          if ((sweep cfg.ttl now c ++ [Entry.mk k now v]).length : ℤ) > cfg.maxsize
          then (sweep cfg.ttl now c ++ [Entry.mk k now v]).drop 1
          else sweep cfg.ttl now c ++ [Entry.mk k now v]⟩ := by
  simp [wrapper, h]

/-! ### Claim C7: hit behaviour -/

/-- C7: on every hit on an unexpired key, the call returns the stored
value without invoking the wrapped computation, moves the entry to the
most-recently-used position, and leaves the entry's insertion timestamp
unchanged — after the hit the entry for the key still carries its
original insertion time, so repeated hits never reset it. -/
theorem C7_hit_refreshes_recency_only (cfg : Config) (k : κ) (r : Except ε α)
    (now : ℚ) (c : List (Entry κ α)) (e : Entry κ α)
    (hfind : findEntry k (sweep cfg.ttl now c) = some e)
    (hfresh : ¬ now - e.tIns > cfg.ttl) :
    (wrapper cfg true k r now c).result = Except.ok e.val ∧
    (wrapper cfg true k r now c).computed = false ∧
    (wrapper cfg true k r now c).cache
      = eraseKey k (sweep cfg.ttl now c) ++ [Entry.mk k e.tIns e.val] ∧
    findEntry k (wrapper cfg true k r now c).cache
      = some (Entry.mk k e.tIns e.val) ∧
    (wrapper cfg true k r now c).cache.getLast?
      = some (Entry.mk k e.tIns e.val) := by
  rw [wrapper_hit r hfind]
  refine ⟨rfl, rfl, rfl, ?_, ?_⟩
  · rw [findEntry_append_none (findEntry_eraseKey k _)]
    exact findEntry_cons_self rfl
  · exact List.getLast?_concat _

/-- C7 witness: a concrete unexpired hit (ttl 10, entry stored at time
0, hit at time 5) returning the stored value 11 with its timestamp
intact. -/
theorem C7_hit_refreshes_recency_only_witness :
    (@wrapper ℕ ℕ ℕ _ ⟨10, 128⟩ true 1 (Except.ok 99) 5 [Entry.mk 1 0 11]).result
        = Except.ok 11 ∧
    (@wrapper ℕ ℕ ℕ _ ⟨10, 128⟩ true 1 (Except.ok 99) 5 [Entry.mk 1 0 11]).computed
        = false ∧
    (@wrapper ℕ ℕ ℕ _ ⟨10, 128⟩ true 1 (Except.ok 99) 5 [Entry.mk 1 0 11]).cache
      = eraseKey 1 (sweep 10 5 [Entry.mk 1 0 11]) ++ [Entry.mk 1 0 11] ∧
    findEntry 1 (@wrapper ℕ ℕ ℕ _ ⟨10, 128⟩ true 1 (Except.ok 99) 5
        [Entry.mk 1 0 11]).cache = some (Entry.mk 1 0 11) ∧
    (@wrapper ℕ ℕ ℕ _ ⟨10, 128⟩ true 1 (Except.ok 99) 5
        [Entry.mk 1 0 11]).cache.getLast? = some (Entry.mk 1 0 11) :=
  C7_hit_refreshes_recency_only ⟨10, 128⟩ 1 (Except.ok 99) 5 [Entry.mk 1 0 11]
    (Entry.mk 1 0 11)
    (by norm_num [sweep, expired, findEntry, List.dropWhile, List.find?])
    (by norm_num)

/-! ### Claim C4: key-construction error -/

/-- C4 counterexample: a call whose arguments are unusable as a mapping
key fails with the key error, yet the cache is NOT left exactly as it
was: the expiry sweep at the start of the call still runs, here
removing an expired entry (ttl 1, entry inserted at time 0, call at
time 5), so the cache goes from one entry to empty. -/
theorem C4_counterexample :
    (@wrapper ℕ ℕ ℕ _ ⟨1, 10⟩ false 1 (Except.ok 7) 5 [Entry.mk 2 0 9]).result
        = Except.error CallErr.keyErr ∧
    (@wrapper ℕ ℕ ℕ _ ⟨1, 10⟩ false 1 (Except.ok 7) 5 [Entry.mk 2 0 9]).cache
        = [] ∧
    ([Entry.mk 2 0 9] : List (Entry ℕ ℕ)) ≠ [] := by
  refine ⟨rfl, ?_, by simp⟩
  rw [wrapper_keyErr]
  exact sweep_eq_nil (by norm_num)

/-- C4 (amended): a call whose arguments are unusable as a mapping key
fails with a key-construction error, performs no computation, stores no
entry, performs no hit reordering and no capacity eviction — the
resulting cache is exactly the swept cache; in particular, when no
entry is expired at the call's clock value, the cache is left
unmodified. -/
theorem C4_keyError_state (cfg : Config) (k : κ) (r : Except ε α) (now : ℚ)
    (c : List (Entry κ α)) :
    (wrapper cfg false k r now c).result = Except.error CallErr.keyErr ∧
    (wrapper cfg false k r now c).computed = false ∧
    (wrapper cfg false k r now c).cache = sweep cfg.ttl now c ∧
    ((∀ e ∈ c, ¬ now - e.tIns > cfg.ttl) →
      (wrapper cfg false k r now c).cache = c) := by
  rw [wrapper_keyErr]
  exact ⟨rfl, rfl, rfl, fun h => sweep_eq_self h⟩

/-- C4 witness: the amended statement at a concrete input where
nothing is expired (ttl 10, entry at time 0, call at time 5): the cache
is left unmodified. -/
theorem C4_keyError_state_witness :
    (@wrapper ℕ ℕ ℕ _ ⟨10, 128⟩ false 1 (Except.ok 7) 5 [Entry.mk 2 0 9]).result
        = Except.error CallErr.keyErr ∧
    (@wrapper ℕ ℕ ℕ _ ⟨10, 128⟩ false 1 (Except.ok 7) 5 [Entry.mk 2 0 9]).computed
        = false ∧
    (@wrapper ℕ ℕ ℕ _ ⟨10, 128⟩ false 1 (Except.ok 7) 5 [Entry.mk 2 0 9]).cache
        = sweep 10 5 [Entry.mk 2 0 9] ∧
    ((∀ e ∈ [Entry.mk 2 0 9], ¬ (5 : ℚ) - e.tIns > 10) →
      (@wrapper ℕ ℕ ℕ _ ⟨10, 128⟩ false 1 (Except.ok 7) 5
          [Entry.mk 2 0 9]).cache = [Entry.mk 2 0 9]) :=
  C4_keyError_state ⟨10, 128⟩ 1 (Except.ok 7) 5 [Entry.mk 2 0 9]

/-! ### Claim C9: failures are not cached -/

/-- C9: when the wrapped computation raises on a miss, the error
propagates to the caller unchanged, no entry is stored for the call's
key (the post-call cache is exactly the swept cache and contains no
binding for the key), and a second call with the same key invokes the
computation again. -/
theorem C9_failure_not_cached (cfg : Config) (k : κ) (err : ε) (now : ℚ)
    (c : List (Entry κ α))
    (hmiss : findEntry k (sweep cfg.ttl now c) = none) :
    (wrapper cfg true k (Except.error err) now c).result
        = Except.error (CallErr.fnErr err) ∧
    (wrapper cfg true k (Except.error err) now c).computed = true ∧
    (wrapper cfg true k (Except.error err) now c).cache = sweep cfg.ttl now c ∧
    findEntry k (wrapper cfg true k (Except.error err) now c).cache = none ∧
    ∀ (now2 : ℚ) (r2 : Except ε α),
      (wrapper cfg true k r2 now2
        (wrapper cfg true k (Except.error err) now c).cache).computed = true := by
  rw [wrapper_miss_err err hmiss]
  refine ⟨rfl, rfl, rfl, hmiss, ?_⟩
  intro now2 r2
  have h2 : findEntry k (sweep cfg.ttl now2 (sweep cfg.ttl now c)) = none := by
    rw [findEntry_eq_none] at hmiss ⊢
    intro e he
    exact hmiss e (mem_of_mem_sweep he)
  cases r2 with
  | error e2 => rw [wrapper_miss_err e2 h2]
  | ok v2 => rw [wrapper_miss_ok v2 h2]

/-- C9 witness: a concrete failing first call on an empty cache (error
code 42): the error propagates, nothing is stored, and a second call
with the same key invokes the computation again. -/
theorem C9_failure_not_cached_witness :
    (@wrapper ℕ ℕ ℕ _ ⟨10, 128⟩ true 1 (Except.error 42) 0 []).result
        = Except.error (CallErr.fnErr 42) ∧
    (@wrapper ℕ ℕ ℕ _ ⟨10, 128⟩ true 1 (Except.error 42) 0 []).computed = true ∧
    (@wrapper ℕ ℕ ℕ _ ⟨10, 128⟩ true 1 (Except.error 42) 0 []).cache
        = sweep 10 0 [] ∧
    findEntry 1 (@wrapper ℕ ℕ ℕ _ ⟨10, 128⟩ true 1 (Except.error 42) 0 []).cache
        = none ∧
    ∀ (now2 : ℚ) (r2 : Except ℕ ℕ),
      (wrapper ⟨10, 128⟩ true 1 r2 now2
        (@wrapper ℕ ℕ ℕ _ ⟨10, 128⟩ true 1 (Except.error 42) 0 []).cache).computed
          = true :=
  C9_failure_not_cached ⟨10, 128⟩ 1 42 0 [] rfl

/-! ### Claim C10: a returning call leaves its entry most-recently-used -/

/-- C10: every call that returns normally on a cache with maxsize ≥ 1
leaves an entry for its key at the most-recently-used (last) position
of the cache, holding the value the call returned; in particular the
capacity eviction of an overflowing miss never removes the entry just
inserted. -/
theorem C10_returning_call_leaves_mru (cfg : Config) (k : κ) (v : α) (now : ℚ)
    (c : List (Entry κ α)) (hms : 1 ≤ cfg.maxsize) :
    ∃ t w,
      (wrapper cfg true k (Except.ok v : Except ε α) now c).cache.getLast?
          = some (Entry.mk k t w) ∧
      (wrapper cfg true k (Except.ok v : Except ε α) now c).result
          = Except.ok w := by
  cases hfind : findEntry k (sweep cfg.ttl now c) with
  | some e =>
      refine ⟨e.tIns, e.val, ?_, ?_⟩
      · rw [wrapper_hit _ hfind]
        exact List.getLast?_concat _
      · rw [wrapper_hit _ hfind]
  | none =>
      refine ⟨now, v, ?_, ?_⟩
      · rw [wrapper_miss_ok v hfind]
        by_cases hlen :
            ((sweep cfg.ttl now c ++ [Entry.mk k now v]).length : ℤ) > cfg.maxsize
        · simp only [if_pos hlen]
          cases hsw : sweep cfg.ttl now c with
          | nil =>
              exfalso
              rw [hsw] at hlen
              simp at hlen
              omega
          | cons b c1 =>
              simp only [List.cons_append, List.drop_succ_cons, List.drop_zero]
              exact List.getLast?_concat _
        · simp only [if_neg hlen]
          exact List.getLast?_concat _
      · rw [wrapper_miss_ok v hfind]

/-- C10 witness: a concrete overflowing miss (maxsize 1, one resident
entry, new key 2): the just-inserted entry for key 2 ends up
most-recently-used and the resident entry is the one evicted. -/
theorem C10_returning_call_leaves_mru_witness :
    ∃ t w,
      (@wrapper ℕ ℕ ℕ _ ⟨10, 1⟩ true 2 (Except.ok 4) 1 [Entry.mk 1 0 11]).cache.getLast?
          = some (Entry.mk 2 t w) ∧
      (@wrapper ℕ ℕ ℕ _ ⟨10, 1⟩ true 2 (Except.ok 4) 1 [Entry.mk 1 0 11]).result
          = Except.ok w :=
  C10_returning_call_leaves_mru ⟨10, 1⟩ 2 4 1 [Entry.mk 1 0 11] (by norm_num)

/-! ### Claim C8: capacity invariant -/

theorem applyOp_length_le (cfg : Config) (op : Op κ α ε) (c : List (Entry κ α))
    (hc : (c.length : ℤ) ≤ cfg.maxsize) :
    ((applyOp cfg op c).length : ℤ) ≤ cfg.maxsize := by
  cases op with
  | clear =>
      have h0 : (0 : ℤ) ≤ (c.length : ℤ) := Int.ofNat_nonneg _
      simp only [applyOp, cache_clear, List.length_nil]
      omega
  | stats => simpa [applyOp] using hc
  | call u k r now =>
      have hsw : ((sweep cfg.ttl now c).length : ℤ) ≤ cfg.maxsize := by
        have := length_sweep_le cfg.ttl now c
        omega
      cases u with
      | false =>
          simp only [applyOp, wrapper_keyErr]
          exact hsw
      | true =>
          cases hfind : findEntry k (sweep cfg.ttl now c) with
          | some e =>
              simp only [applyOp, wrapper_hit r hfind, List.length_append,
                List.length_cons, List.length_nil]
              have hlt := length_eraseKey_lt hfind
              have hle := length_sweep_le cfg.ttl now c
              omega
          | none =>
              cases r with
              | error err =>
                  simp only [applyOp, wrapper_miss_err err hfind]
                  exact hsw
              | ok v =>
                  simp only [applyOp, wrapper_miss_ok v hfind]
                  split
                  · rename_i hyes
                    simp only [List.length_drop, List.length_append,
                      List.length_cons, List.length_nil]
                    have := length_sweep_le cfg.ttl now c
                    omega
                  · rename_i hno
                    simp only [List.length_append, List.length_cons,
                      List.length_nil, not_lt] at hno ⊢
                    omega

theorem runOps_length_le (cfg : Config) (ops : List (Op κ α ε))
    (c : List (Entry κ α)) (hc : (c.length : ℤ) ≤ cfg.maxsize) :
    ((runOps cfg ops c).length : ℤ) ≤ cfg.maxsize := by
  induction ops generalizing c with
  | nil => simpa [runOps] using hc
  | cons op ops ih =>
      simp only [runOps, List.foldl_cons]
      exact ih (applyOp cfg op c) (applyOp_length_le cfg op c hc)

/-- C8: on a cache constructed with a positive maxsize, after every
sequence of public operations (calls, clear, stats) starting from the
empty cache, the number of retained entries is at most maxsize. -/
theorem C8_at_most_maxsize (cfg : Config) (hpos : 0 < cfg.maxsize)
    (ops : List (Op κ α ε)) :
    ((runOps cfg ops ([] : List (Entry κ α))).length : ℤ) ≤ cfg.maxsize :=
  runOps_length_le cfg ops [] (by simpa using le_of_lt hpos)

/-- C8 witness: three distinct insertions into an empty maxsize-2 cache
leave at most 2 entries. -/
theorem C8_at_most_maxsize_witness :
    ((runOps (⟨10, 2⟩ : Config)
        ([Op.call true 1 (Except.ok 1) 0, Op.call true 2 (Except.ok 2) 0,
          Op.call true 3 (Except.ok 3) 0] : List (Op ℕ ℕ ℕ))
        ([] : List (Entry ℕ ℕ))).length : ℤ) ≤ (2 : ℤ) :=
  C8_at_most_maxsize ⟨10, 2⟩ (by norm_num)
    ([Op.call true 1 (Except.ok 1) 0, Op.call true 2 (Except.ok 2) 0,
      Op.call true 3 (Except.ok 3) 0] : List (Op ℕ ℕ ℕ))

/-! ### Claim C1: the expiry invariant is broken by hit reordering -/

theorem demoCall1_cache : demoCall1.cache = [Entry.mk 1 0 11] := by
  have hfind : findEntry 1 (sweep demoCfg.ttl 0 ([] : List (Entry ℕ ℕ)))
      = none := rfl
  unfold demoCall1
  rw [wrapper_miss_ok 11 hfind]
  norm_num [demoCfg, sweep]

theorem demoCall2_cache :
    demoCall2.cache = [Entry.mk 1 0 11, Entry.mk 2 5 22] := by
  have hsw : sweep demoCfg.ttl 5 [Entry.mk 1 (0 : ℚ) 11]
      = [Entry.mk 1 (0 : ℚ) 11] :=
    sweep_eq_self (by norm_num [demoCfg])
  have hfind : findEntry 2 (sweep demoCfg.ttl 5 [Entry.mk 1 (0 : ℚ) 11])
      = none := by
    rw [hsw]; rfl
  unfold demoCall2
  rw [demoCall1_cache, wrapper_miss_ok 22 hfind]
  rw [hsw]
  norm_num [demoCfg]

theorem demoCall3_cache :
    demoCall3.cache = [Entry.mk 2 5 22, Entry.mk 1 0 11] := by
  have hsw : sweep demoCfg.ttl 6 [Entry.mk 1 (0 : ℚ) 11, Entry.mk 2 5 22]
      = [Entry.mk 1 (0 : ℚ) 11, Entry.mk 2 5 22] :=
    sweep_eq_self (by norm_num [demoCfg])
  have hfind : findEntry 1
      (sweep demoCfg.ttl 6 [Entry.mk 1 (0 : ℚ) 11, Entry.mk 2 5 22])
      = some (Entry.mk 1 0 11) := by
    rw [hsw]; rfl
  unfold demoCall3
  rw [demoCall2_cache, wrapper_hit _ hfind]
  rw [hsw]
  rfl

/-- C1: the claimed invariant — no entry whose age exceeds ttl is ever
returned as a hit, even after hits have reordered entries — is violated
by the code: with ttl 10, after a miss on key 1 at time 0, a miss on
key 2 at time 5 and a hit on key 1 at time 6 (which moves key 1's
entry behind key 2's in recency order), the call on key 1 at time 12
finds key 2's fresh entry first, stops the sweep there, and returns key
1's entry as a hit although its age 12 exceeds the ttl 10. -/
theorem C1_expired_entry_returned_as_hit :
    demoCall3.cache = [Entry.mk 2 5 22, Entry.mk 1 0 11] ∧
    findEntry 1 demoCall3.cache = some (Entry.mk 1 0 11) ∧
    demoCall4.result = Except.ok 11 ∧
    demoCall4.computed = false ∧
    (12 : ℚ) - (Entry.mk 1 (0 : ℚ) 11).tIns > demoCfg.ttl := by
  have hsw : sweep demoCfg.ttl 12 [Entry.mk 2 (5 : ℚ) 22, Entry.mk 1 0 11]
      = [Entry.mk 2 (5 : ℚ) 22, Entry.mk 1 0 11] :=
    sweep_cons_fresh (by norm_num [demoCfg])
  have hfind : findEntry 1
      (sweep demoCfg.ttl 12 [Entry.mk 2 (5 : ℚ) 22, Entry.mk 1 0 11])
      = some (Entry.mk 1 0 11) := by
    rw [hsw]; rfl
  have h4 : demoCall4 = wrapper demoCfg true 1 (Except.ok 99) 12
      [Entry.mk 2 5 22, Entry.mk 1 0 11] := by
    unfold demoCall4
    rw [demoCall3_cache]
  refine ⟨demoCall3_cache, ?_, ?_, ?_, by norm_num [demoCfg]⟩
  · rw [demoCall3_cache]; rfl
  · rw [h4, wrapper_hit _ hfind]
  · rw [h4, wrapper_hit _ hfind]

/-! ### Claim C5: TTL expiry boundary -/

/-- C5: for a cache whose entries were all inserted no later than t0
and which holds the value v for key k inserted at t0 (the state after a
storing miss at t0, the clock being monotone), a call on k at time
t0 + ttl + eps (any eps > 0) invokes the computation again (miss),
while a call on k at time t0 + ttl - eps (any 0 < eps ≤ ttl) is a hit
returning the stored value without invoking the computation. -/
theorem C5_ttl_expiry_boundary (cfg : Config) (k : κ) (v : α) (t0 : ℚ)
    (c : List (Entry κ α)) (hnd : nodupKeys c)
    (hmem : Entry.mk k t0 v ∈ c)
    (hall : ∀ e ∈ c, e.tIns ≤ t0) :
    (∀ eps : ℚ, 0 < eps → ∀ r : Except ε α,
      (wrapper cfg true k r (t0 + cfg.ttl + eps) c).computed = true) ∧
    (∀ eps : ℚ, 0 < eps → eps ≤ cfg.ttl → ∀ r : Except ε α,
      (wrapper cfg true k r (t0 + cfg.ttl - eps) c).computed = false ∧
      (wrapper cfg true k r (t0 + cfg.ttl - eps) c).result = Except.ok v) := by
  constructor
  · intro eps heps r
    have hswe : sweep cfg.ttl (t0 + cfg.ttl + eps) c = [] := by
      apply sweep_eq_nil
      intro e he
      have := hall e he
      linarith
    have hfind : findEntry k (sweep cfg.ttl (t0 + cfg.ttl + eps) c) = none := by
      rw [hswe]; rfl
    cases r with
    | error err => rw [wrapper_miss_err err hfind]
    | ok w => rw [wrapper_miss_ok w hfind]
  · intro eps heps hle r
    have hfresh : ¬ (t0 + cfg.ttl - eps) - (Entry.mk k t0 v).tIns > cfg.ttl := by
      show ¬ (t0 + cfg.ttl - eps) - t0 > cfg.ttl
      intro hgt
      linarith
    have hmemsw : Entry.mk k t0 v ∈ sweep cfg.ttl (t0 + cfg.ttl - eps) c :=
      mem_sweep_of_fresh hmem hfresh
    have hfind : findEntry k (sweep cfg.ttl (t0 + cfg.ttl - eps) c)
        = some (Entry.mk k t0 v) :=
      findEntry_of_mem_nodup (nodupKeys_sweep hnd) hmemsw rfl
    rw [wrapper_hit r hfind]
    exact ⟨rfl, rfl⟩

/-- C5 witness: ttl 10, value 11 stored for key 1 at time 0; the call
at time 0 + 10 + 1 recomputes, the call at time 0 + 10 - 1 is a hit
returning 11 without recomputation. -/
theorem C5_ttl_expiry_boundary_witness :
    (@wrapper ℕ ℕ ℕ _ ⟨10, 128⟩ true 1 (Except.ok 99) ((0 : ℚ) + 10 + 1)
        [Entry.mk 1 0 11]).computed = true ∧
    (@wrapper ℕ ℕ ℕ _ ⟨10, 128⟩ true 1 (Except.ok 99) ((0 : ℚ) + 10 - 1)
        [Entry.mk 1 0 11]).computed = false ∧
    (@wrapper ℕ ℕ ℕ _ ⟨10, 128⟩ true 1 (Except.ok 99) ((0 : ℚ) + 10 - 1)
        [Entry.mk 1 0 11]).result = Except.ok 11 := by
  have h := C5_ttl_expiry_boundary (ε := ℕ) (⟨10, 128⟩ : Config) 1 11 0
    [Entry.mk 1 0 11] (by decide) (by decide) (by decide)
  exact ⟨h.1 1 (by norm_num) (Except.ok 99),
    (h.2 1 (by norm_num) (by norm_num) (Except.ok 99)).1,
    (h.2 1 (by norm_num) (by norm_num) (Except.ok 99)).2⟩

/-! ### Claim C6: LRU eviction -/

theorem runCalls_nil (cfg : Config) (fv : κ → α) (c : List (Entry κ α)) :
    runCalls cfg fv [] c = c :=
  rfl

theorem runCalls_cons (cfg : Config) (fv : κ → α) (k : κ) (ks : List κ)
    (c : List (Entry κ α)) :
    runCalls cfg fv (k :: ks) c
      = runCalls cfg fv ks
          ((@wrapper κ α Unit _ cfg true k (Except.ok (fv k)) 0 c).cache) :=
  rfl

theorem runCalls_append (cfg : Config) (fv : κ → α) (l₁ l₂ : List κ)
    (c : List (Entry κ α)) :
    runCalls cfg fv (l₁ ++ l₂) c = runCalls cfg fv l₂ (runCalls cfg fv l₁ c) :=
  List.foldl_append _ _ _ _

/-- Filling a cache that has room: calling a list of fresh, pairwise
distinct keys at time 0 (with non-negative ttl) appends one entry per
key in call order, with no eviction. -/
theorem runCalls_fill (cfg : Config) (fv : κ → α) (ks : List κ)
    (c : List (Entry κ α)) (httl : 0 ≤ cfg.ttl)
    (hts : ∀ e ∈ c, e.tIns = 0)
    (hfresh : ∀ k ∈ ks, k ∉ c.map Entry.key)
    (hnd : ks.Nodup)
    (hlen : ((c.length + ks.length : ℕ) : ℤ) ≤ cfg.maxsize) :
    runCalls cfg fv ks c = c ++ ks.map (fun k => Entry.mk k 0 (fv k)) := by
  induction ks generalizing c with
  | nil => simp [runCalls]
  | cons k ks ih =>
      have hswp : sweep cfg.ttl 0 c = c := by
        apply sweep_eq_self
        intro e he
        rw [hts e he]
        intro hgt
        simp only [sub_zero] at hgt
        linarith
      have hfind : findEntry k (sweep cfg.ttl 0 c) = none := by
        rw [hswp, findEntry_eq_none]
        intro e he hek
        exact hfresh k (by simp) (hek ▸ List.mem_map_of_mem Entry.key he)
      have hnoev :
          ¬ ((c ++ [Entry.mk k 0 (fv k)]).length : ℤ) > cfg.maxsize := by
        simp only [List.length_append, List.length_cons, List.length_nil,
          not_lt]
        simp only [List.length_cons] at hlen
        omega
      rw [runCalls_cons, wrapper_miss_ok (fv k) hfind]
      simp only [if_neg hnoev, hswp]
      rw [ih (c ++ [Entry.mk k 0 (fv k)])]
      · simp
      · intro e he
        rcases List.mem_append.mp he with h | h
        · exact hts e h
        · simp only [List.mem_singleton] at h
          rw [h]
      · intro k2 hk2
        simp only [List.map_append, List.map_cons, List.map_nil,
          List.mem_append, List.mem_singleton, not_or]
        constructor
        · exact hfresh k2 (by simp [hk2])
        · intro hkk
          rw [hkk] at hk2
          exact (List.nodup_cons.mp hnd).1 hk2
      · exact (List.nodup_cons.mp hnd).2
      · simp only [List.length_append, List.length_cons, List.length_nil]
        simp only [List.length_cons] at hlen
        omega

/-- Inserting one key more than maxsize distinct fresh keys into the
empty cache evicts exactly the first-inserted key: the final cache
holds the remaining keys, in insertion order, with the last-inserted
key most recent. -/
theorem runCalls_evicts_first (cfg : Config) (fv : κ → α) (ks₀ : List κ)
    (kl : κ) (httl : 0 ≤ cfg.ttl) (hnd : (ks₀ ++ [kl]).Nodup)
    (hlen : (ks₀.length : ℤ) = cfg.maxsize) (hpos : 1 ≤ cfg.maxsize) :
    runCalls cfg fv (ks₀ ++ [kl]) []
      = (ks₀.drop 1 ++ [kl]).map (fun k => Entry.mk k 0 (fv k)) := by
  have hnd₀ : ks₀.Nodup := (List.nodup_append.mp hnd).1
  have hfill : runCalls cfg fv ks₀ ([] : List (Entry κ α))
      = ks₀.map (fun k => Entry.mk k 0 (fv k)) := by
    rw [runCalls_fill cfg fv ks₀ [] httl (by simp) (by simp) hnd₀
      (by simpa using le_of_eq hlen)]
    simp
  rw [runCalls_append, hfill]
  have hts : ∀ e ∈ ks₀.map (fun k => Entry.mk k 0 (fv k)), e.tIns = (0 : ℚ) := by
    intro e he
    rcases List.mem_map.mp he with ⟨k, _, hk⟩
    rw [← hk]
  have hswp : sweep cfg.ttl 0 (ks₀.map (fun k => Entry.mk k 0 (fv k)))
      = ks₀.map (fun k => Entry.mk k 0 (fv k)) := by
    apply sweep_eq_self
    intro e he
    rw [hts e he]
    intro hgt
    simp only [sub_zero] at hgt
    linarith
  have hkl : kl ∉ ks₀ := by
    intro hmem
    rcases List.nodup_append.mp hnd with ⟨-, -, hdisj⟩
    exact hdisj hmem (by simp)
  have hfind : findEntry kl
      (sweep cfg.ttl 0 (ks₀.map (fun k => Entry.mk k 0 (fv k)))) = none := by
    rw [hswp, findEntry_eq_none]
    intro e he hek
    rcases List.mem_map.mp he with ⟨k, hk, hke⟩
    rw [← hke] at hek
    exact hkl (hek ▸ hk)
  have hev : ((ks₀.map (fun k => Entry.mk k 0 (fv k))
      ++ [Entry.mk kl 0 (fv kl)]).length : ℤ) > cfg.maxsize := by
    simp only [List.length_append, List.length_map, List.length_cons,
      List.length_nil]
    omega
  rw [runCalls_cons, runCalls_nil, wrapper_miss_ok (fv kl) hfind]
  simp only [if_pos hev, hswp]
  cases ks₀ with
  | nil =>
      exfalso
      simp at hlen
      omega
  | cons k0 ks₀ =>
      simp

/-- One-call evaluation: a miss that stays within capacity appends the
new entry at the most-recently-used end. -/
theorem call_miss_no_evict (cfg : Config) (k : κ) (v : α) (now : ℚ)
    (c : List (Entry κ α)) (hswp : sweep cfg.ttl now c = c)
    (hfind : findEntry k c = none)
    (hlen : ((c.length + 1 : ℕ) : ℤ) ≤ cfg.maxsize) :
    (wrapper cfg true k (Except.ok v : Except ε α) now c).cache
        = c ++ [Entry.mk k now v] := by
  rw [wrapper_miss_ok v (by rw [hswp]; exact hfind)]
  have hno : ¬ ((c ++ [Entry.mk k now v]).length : ℤ) > cfg.maxsize := by
    simp only [List.length_append, List.length_cons, List.length_nil, not_lt]
    omega
  simp only [hswp, if_neg hno]

/-- One-call evaluation: a miss that overflows capacity appends the new
entry and evicts the least-recently-used entry (the front). -/
theorem call_miss_evict (cfg : Config) (k : κ) (v : α) (now : ℚ)
    (b : Entry κ α) (c : List (Entry κ α))
    (hswp : sweep cfg.ttl now (b :: c) = b :: c)
    (hfind : findEntry k (b :: c) = none)
    (hlen : cfg.maxsize < (((b :: c).length + 1 : ℕ) : ℤ)) :
    (wrapper cfg true k (Except.ok v : Except ε α) now (b :: c)).cache
        = c ++ [Entry.mk k now v] := by
  have hyes : (((b :: c) ++ [Entry.mk k now v]).length : ℤ) > cfg.maxsize := by
    simp only [List.length_append, List.length_cons, List.length_nil]
    simp only [List.length_cons] at hlen
    omega
  rw [wrapper_miss_ok v (by rw [hswp]; exact hfind)]
  rw [hswp, if_pos hyes]
  show List.drop 1 ((b :: c) ++ [Entry.mk k now v]) = c ++ [Entry.mk k now v]
  rw [List.cons_append, List.drop_succ_cons, List.drop_zero]

/-- One-call evaluation: a hit removes the binding and re-appends it at
the most-recently-used end, preserving its insertion time. -/
theorem call_hit (cfg : Config) (k : κ) (r : Except ε α) (now : ℚ)
    (c : List (Entry κ α)) (e : Entry κ α)
    (hswp : sweep cfg.ttl now c = c) (hfind : findEntry k c = some e) :
    (wrapper cfg true k r now c).cache
        = eraseKey k c ++ [Entry.mk k e.tIns e.val] := by
  rw [wrapper_hit r (by rw [hswp]; exact hfind)]
  simp only [hswp]

/-- C6: (i) with maxsize k, inserting k+1 distinct keys with no
intervening hits and no expirations evicts exactly the first-inserted
key and no other — the final cache holds the remaining k keys in order;
(ii) a key accessed after later insertions is protected: on a maxsize-2
cache, insert 1, insert 2, hit 1, insert 3 evicts key 2 and keeps key
1; (iii) the spec scenario: f(5), f(5) (hit), f(6), f(7) on a maxsize-2
cache evicts f(5)'s entry — which was least-recently-used despite its
earlier hit — and a further f(5) recomputes. -/
theorem C6_lru_eviction :
    (∀ (cfg : Config) (fv : κ → α) (ks₀ : List κ) (kl : κ),
      0 ≤ cfg.ttl → (ks₀ ++ [kl]).Nodup →
      (ks₀.length : ℤ) = cfg.maxsize → 1 ≤ cfg.maxsize →
      runCalls cfg fv (ks₀ ++ [kl]) []
        = (ks₀.drop 1 ++ [kl]).map (fun k => Entry.mk k 0 (fv k))) ∧
    runCalls ⟨1, 2⟩ (fun n => n * n) [1, 2, 1, 3] ([] : List (Entry ℕ ℕ))
      = [Entry.mk 1 0 1, Entry.mk 3 0 9] ∧
    runCalls ⟨1, 2⟩ (fun n => n * n) [5, 5, 6, 7] ([] : List (Entry ℕ ℕ))
      = [Entry.mk 6 0 36, Entry.mk 7 0 49] ∧
    (@wrapper ℕ ℕ Unit _ ⟨1, 2⟩ true 5 (Except.ok 25) 0
      (runCalls ⟨1, 2⟩ (fun n => n * n) [5, 5, 6, 7]
        ([] : List (Entry ℕ ℕ)))).computed = true := by
  have hA1 : (@wrapper ℕ ℕ Unit _ ⟨1, 2⟩ true 1 (Except.ok 1) 0
      ([] : List (Entry ℕ ℕ))).cache = [Entry.mk 1 0 1] :=
    call_miss_no_evict ⟨1, 2⟩ 1 1 0 [] rfl rfl (by norm_num)
  have hA2 : (@wrapper ℕ ℕ Unit _ ⟨1, 2⟩ true 2 (Except.ok 4) 0
      [Entry.mk 1 0 1]).cache = [Entry.mk 1 0 1, Entry.mk 2 0 4] :=
    call_miss_no_evict ⟨1, 2⟩ 2 4 0 [Entry.mk 1 0 1]
      (sweep_eq_self (by norm_num)) rfl (by norm_num)
  have hA3 : (@wrapper ℕ ℕ Unit _ ⟨1, 2⟩ true 1 (Except.ok 1) 0
      [Entry.mk 1 0 1, Entry.mk 2 0 4]).cache
        = [Entry.mk 2 0 4, Entry.mk 1 0 1] :=
    call_hit ⟨1, 2⟩ 1 (Except.ok 1) 0 [Entry.mk 1 0 1, Entry.mk 2 0 4]
      (Entry.mk 1 0 1) (sweep_eq_self (by norm_num)) rfl
  have hA4 : (@wrapper ℕ ℕ Unit _ ⟨1, 2⟩ true 3 (Except.ok 9) 0
      [Entry.mk 2 0 4, Entry.mk 1 0 1]).cache
        = [Entry.mk 1 0 1, Entry.mk 3 0 9] :=
    call_miss_evict ⟨1, 2⟩ 3 9 0 (Entry.mk 2 0 4) [Entry.mk 1 0 1]
      (sweep_eq_self (by norm_num)) rfl (by norm_num)
  have hB1 : (@wrapper ℕ ℕ Unit _ ⟨1, 2⟩ true 5 (Except.ok 25) 0
      ([] : List (Entry ℕ ℕ))).cache = [Entry.mk 5 0 25] :=
    call_miss_no_evict ⟨1, 2⟩ 5 25 0 [] rfl rfl (by norm_num)
  have hB2 : (@wrapper ℕ ℕ Unit _ ⟨1, 2⟩ true 5 (Except.ok 25) 0
      [Entry.mk 5 0 25]).cache = [Entry.mk 5 0 25] :=
    call_hit ⟨1, 2⟩ 5 (Except.ok 25) 0 [Entry.mk 5 0 25] (Entry.mk 5 0 25)
      (sweep_eq_self (by norm_num)) rfl
  have hB3 : (@wrapper ℕ ℕ Unit _ ⟨1, 2⟩ true 6 (Except.ok 36) 0
      [Entry.mk 5 0 25]).cache = [Entry.mk 5 0 25, Entry.mk 6 0 36] :=
    call_miss_no_evict ⟨1, 2⟩ 6 36 0 [Entry.mk 5 0 25]
      (sweep_eq_self (by norm_num)) rfl (by norm_num)
  have hB4 : (@wrapper ℕ ℕ Unit _ ⟨1, 2⟩ true 7 (Except.ok 49) 0
      [Entry.mk 5 0 25, Entry.mk 6 0 36]).cache
        = [Entry.mk 6 0 36, Entry.mk 7 0 49] :=
    call_miss_evict ⟨1, 2⟩ 7 49 0 (Entry.mk 5 0 25) [Entry.mk 6 0 36]
      (sweep_eq_self (by norm_num)) rfl (by norm_num)
  have hrunA : runCalls ⟨1, 2⟩ (fun n => n * n) [1, 2, 1, 3]
      ([] : List (Entry ℕ ℕ)) = [Entry.mk 1 0 1, Entry.mk 3 0 9] := by
    norm_num [runCalls_cons, runCalls_nil]
    rw [hA1, hA2, hA3, hA4]
  have hrunB : runCalls ⟨1, 2⟩ (fun n => n * n) [5, 5, 6, 7]
      ([] : List (Entry ℕ ℕ)) = [Entry.mk 6 0 36, Entry.mk 7 0 49] := by
    norm_num [runCalls_cons, runCalls_nil]
    rw [hB1, hB2, hB3, hB4]
  refine ⟨runCalls_evicts_first, hrunA, hrunB, ?_⟩
  rw [hrunB]
  have hfind : findEntry 5 (sweep (1 : ℚ) 0
      [Entry.mk 6 (0 : ℚ) 36, Entry.mk 7 0 49]) = none := by
    rw [sweep_eq_self (by norm_num)]
    rfl
  rw [wrapper_miss_ok 25 hfind]

/-- C6 witness: the general eviction statement instantiated at
maxsize 2 and keys 5, 6, 7: the final cache holds keys 6 and 7, key 5
having been evicted. -/
theorem C6_lru_eviction_witness :
    runCalls (⟨1, 2⟩ : Config) (fun n => n * n) ([5, 6] ++ [7])
        ([] : List (Entry ℕ ℕ))
      = (([5, 6] : List ℕ).drop 1 ++ [7]).map
          (fun k => Entry.mk k 0 ((fun n => n * n) k)) :=
  C6_lru_eviction.1 ⟨1, 2⟩ (fun n => n * n) [5, 6] 7 (by norm_num)
    (by decide) (by norm_num) (by norm_num)

/-! ### Claim C3: no construction-time validation -/

/-- C3 counterexample: constructing the decorator with ttl = -1 and
maxsize = 0 — both invalid according to the claim — raises no
configuration error: the construction simply records the parameters,
and the first call through the resulting wrapper proceeds normally,
computing and returning its value. -/
theorem C3_counterexample :
    ttl_cache (-1) 0 = Config.mk (-1) 0 ∧
    (@wrapper ℕ ℕ ℕ _ (ttl_cache (-1) 0) true 1 (Except.ok 7) 0 []).result
        = Except.ok 7 ∧
    (@wrapper ℕ ℕ ℕ _ (ttl_cache (-1) 0) true 1 (Except.ok 7) 0 []).computed
        = true := by
  have hfind : findEntry 1 (sweep (ttl_cache (-1) 0).ttl 0
      ([] : List (Entry ℕ ℕ))) = none := rfl
  refine ⟨rfl, ?_, ?_⟩ <;> rw [wrapper_miss_ok 7 hfind]

/-- C3 (amended): construction never fails: for every ttl and maxsize —
including ttl ≤ 0 and maxsize ≤ 0 — `ttl_cache` yields a configuration
holding exactly those parameters, and the first call through the
wrapper computes and returns normally; the cache merely degenerates:
with ttl ≤ 0 a sweep at any instant strictly later than every insertion
empties the cache, and with maxsize ≤ 0 the entry stored by a miss on
the empty cache is evicted again before the call returns. -/
theorem C3_no_validation (ttl : ℚ) (maxsize : ℤ) (k : κ) (v : α) (now : ℚ) :
    ttl_cache ttl maxsize = Config.mk ttl maxsize ∧
    (wrapper (ttl_cache ttl maxsize) true k (Except.ok v : Except ε α) now
        []).result = Except.ok v ∧
    (wrapper (ttl_cache ttl maxsize) true k (Except.ok v : Except ε α) now
        []).computed = true ∧
    (ttl ≤ 0 → ∀ (now2 : ℚ) (c : List (Entry κ α)),
      (∀ e ∈ c, e.tIns < now2) → sweep ttl now2 c = []) ∧
    (maxsize ≤ 0 →
      (wrapper (ttl_cache ttl maxsize) true k (Except.ok v : Except ε α) now
        []).cache = []) := by
  have hfind : findEntry k (sweep (ttl_cache ttl maxsize).ttl now
      ([] : List (Entry κ α))) = none := rfl
  refine ⟨rfl, ?_, ?_, ?_, ?_⟩
  · rw [wrapper_miss_ok v hfind]
  · rw [wrapper_miss_ok v hfind]
  · intro httl now2 c hall
    apply sweep_eq_nil
    intro e he
    have := hall e he
    linarith
  · intro hms
    rw [wrapper_miss_ok v hfind]
    have hyes : ((sweep (ttl_cache ttl maxsize).ttl now
        ([] : List (Entry κ α)) ++ [Entry.mk k now v]).length : ℤ)
          > (ttl_cache ttl maxsize).maxsize := by
      show ((([] : List (Entry κ α)) ++ [Entry.mk k now v]).length : ℤ) > maxsize
      simp only [List.nil_append, List.length_cons, List.length_nil]
      omega
    rw [if_pos hyes]
    rfl

/-- C3 witness: the amended statement instantiated at ttl = -1,
maxsize = 0: construction succeeds, the first call computes and
returns 7, and the freshly stored entry is evicted at once. -/
theorem C3_no_validation_witness :
    ttl_cache (-1) 0 = Config.mk (-1) 0 ∧
    (@wrapper ℕ ℕ ℕ _ (ttl_cache (-1) 0) true 2 (Except.ok 7) 0 []).result
        = Except.ok 7 ∧
    (@wrapper ℕ ℕ ℕ _ (ttl_cache (-1) 0) true 2 (Except.ok 7) 0 []).cache
        = [] :=
  have h := C3_no_validation (κ := ℕ) (α := ℕ) (ε := ℕ) (-1) 0 2 7 0
  ⟨h.1, h.2.1, h.2.2.2.2 (by norm_num)⟩

/-! ### Claim C2: key construction (`make_key`) over modelled Python
values -/

theorem insertByName_perm (p : String × PyVal) (l : List (String × PyVal)) :
    List.Perm (insertByName p l) (p :: l) := by
  induction l with
  | nil => exact List.Perm.refl _
  | cons q rest ih =>
      rw [insertByName]
      split
      · exact List.Perm.refl _
      · exact (ih.cons q).trans (List.Perm.swap p q rest)

theorem sortKw_perm (l : List (String × PyVal)) : List.Perm (sortKw l) l := by
  induction l with
  | nil => exact List.Perm.refl _
  | cons p rest ih => exact (insertByName_perm p (sortKw rest)).trans (ih.cons p)

theorem insertByName_sorted {p : String × PyVal} {l : List (String × PyVal)}
    (hl : l.Sorted (fun a b => a.1 ≤ b.1)) :
    (insertByName p l).Sorted (fun a b => a.1 ≤ b.1) := by
  induction l with
  | nil => simp [insertByName]
  | cons q rest ih =>
      rw [insertByName]
      split
      · rename_i hpq
        rw [List.sorted_cons]
        refine ⟨?_, hl⟩
        intro b hb
        rcases List.mem_cons.mp hb with h | h
        · rw [h]
          exact hpq
        · exact le_trans hpq ((List.sorted_cons.mp hl).1 b h)
      · rename_i hpq
        rw [List.sorted_cons]
        constructor
        · intro b hb
          rcases List.mem_cons.mp
              ((insertByName_perm p rest).mem_iff.mp hb) with h | h
          · rw [h]
            exact le_of_not_le hpq
          · exact (List.sorted_cons.mp hl).1 b h
        · exact ih (List.sorted_cons.mp hl).2

theorem sortKw_sorted (l : List (String × PyVal)) :
    (sortKw l).Sorted (fun a b => a.1 ≤ b.1) := by
  induction l with
  | nil => simp [sortKw]
  | cons p rest ih => exact insertByName_sorted ih

/-- Sorting keyword items with pairwise-distinct names is a canonical
form: any two permutations of the same items sort identically. -/
theorem sortKw_eq_of_perm {l₁ l₂ : List (String × PyVal)}
    (hp : List.Perm l₁ l₂) (hnd : (l₁.map Prod.fst).Nodup) :
    sortKw l₁ = sortKw l₂ := by
  haveI : IsAntisymm (String × PyVal) (fun a b => a.1 < b.1) :=
    ⟨fun a b h1 h2 => absurd h1 (lt_asymm h2)⟩
  have hperm : List.Perm (sortKw l₁) (sortKw l₂) :=
    (sortKw_perm l₁).trans (hp.trans (sortKw_perm l₂).symm)
  have hnd1 : ((sortKw l₁).map Prod.fst).Nodup :=
    (((sortKw_perm l₁).map Prod.fst).symm).nodup hnd
  have hnd2 : ((sortKw l₂).map Prod.fst).Nodup :=
    (((sortKw_perm l₂).map Prod.fst).symm).nodup ((hp.map Prod.fst).nodup hnd)
  have hlt1 : (sortKw l₁).Sorted (fun a b => a.1 < b.1) := by
    have hne := List.pairwise_map.mp hnd1
    exact (List.Pairwise.and (sortKw_sorted l₁) hne).imp
      (fun h => lt_of_le_of_ne h.1 h.2)
  have hlt2 : (sortKw l₂).Sorted (fun a b => a.1 < b.1) := by
    have hne := List.pairwise_map.mp hnd2
    exact (List.Pairwise.and (sortKw_sorted l₂) hne).imp
      (fun h => lt_of_le_of_ne h.1 h.2)
  exact List.eq_of_perm_of_sorted hperm hlt1 hlt2

/-- C2 counterexample: the call `f(('a', 1))` — one positional
argument that happens to be a (name, value) tuple — and the call
`f(a=1)` — the same name and value passed as a keyword — have
different positional argument sequences, yet make_key (typed disabled)
maps them to identical keys, so they share one cache entry: after the
first call misses and stores, the second call is a hit that does not
invoke the computation. -/
theorem C2_counterexample :
    make_key false [PyVal.pair (PyVal.str "a") (PyVal.int 1)] []
        = make_key false [] [("a", PyVal.int 1)] ∧
    keyEq (make_key false [PyVal.pair (PyVal.str "a") (PyVal.int 1)] [])
        (make_key false [] [("a", PyVal.int 1)]) = true ∧
    [PyVal.pair (PyVal.str "a") (PyVal.int 1)] ≠ ([] : List PyVal) ∧
    (@wrapper (List PyVal) ℕ ℕ _ ⟨10, 128⟩ true
      (make_key false [] [("a", PyVal.int 1)]) (Except.ok 2) 0
      (@wrapper (List PyVal) ℕ ℕ _ ⟨10, 128⟩ true
        (make_key false [PyVal.pair (PyVal.str "a") (PyVal.int 1)] [])
        (Except.ok 1) 0 []).cache).computed = false := by
  refine ⟨rfl, by decide, by simp, ?_⟩
  have h1 : (@wrapper (List PyVal) ℕ ℕ _ ⟨10, 128⟩ true
      (make_key false [PyVal.pair (PyVal.str "a") (PyVal.int 1)] [])
      (Except.ok 1) 0 []).cache
        = [Entry.mk
            (make_key false [PyVal.pair (PyVal.str "a") (PyVal.int 1)] [])
            0 1] :=
    call_miss_no_evict ⟨10, 128⟩ _ 1 0 [] rfl rfl (by norm_num)
  rw [h1]
  have hfind : findEntry (make_key false [] [("a", PyVal.int 1)])
      (sweep (Config.mk 10 128).ttl 0
        [Entry.mk
          (make_key false [PyVal.pair (PyVal.str "a") (PyVal.int 1)] [])
          0 1])
      = some (Entry.mk
          (make_key false [PyVal.pair (PyVal.str "a") (PyVal.int 1)] [])
          0 1) := by
    rw [sweep_eq_self (by norm_num)]
    rfl
  rw [wrapper_hit _ hfind]

/-- C2 (amended): make_key normalizes named arguments — two calls with
the same positional sequence and the same set of named arguments
(distinct names, any order) produce the same key; with typed enabled
f(1) and f(1.0) produce distinct keys while with typed disabled they
collide under Python equality; the converse of the claim fails: calls
differing in how the arguments are passed can share a key (see the
counterexample), so key equality does not imply equal call shapes. -/
theorem C2_key_normalization :
    (∀ (typed : Bool) (args : List PyVal) (kw1 kw2 : List (String × PyVal)),
      List.Perm kw1 kw2 → (kw1.map Prod.fst).Nodup →
      make_key typed args kw1 = make_key typed args kw2) ∧
    keyEq (make_key true [PyVal.int 1] []) (make_key true [PyVal.float 1] [])
        = false ∧
    keyEq (make_key false [PyVal.int 1] []) (make_key false [PyVal.float 1] [])
        = true ∧
    make_key false [PyVal.int 1] [("b", PyVal.int 2), ("a", PyVal.int 3)]
      = make_key false [PyVal.int 1] [("a", PyVal.int 3), ("b", PyVal.int 2)] := by
  have hba : ¬ (("b" : String) ≤ "a") := by
    rw [String.le_iff_toList_le]
    decide
  have hab : (("a" : String) ≤ "b") := by
    rw [String.le_iff_toList_le]
    decide
  refine ⟨?_, by decide, by decide,
    by simp [make_key, sortKw, insertByName, hba, hab]⟩
  intro typed args kw1 kw2 hperm hnd
  unfold make_key
  rw [sortKw_eq_of_perm hperm hnd]

/-- C2 witness: the normalization statement at the spec's example —
`f(1, b=2, a=3)` and `f(1, a=3, b=2)` produce the same key. -/
theorem C2_key_normalization_witness :
    make_key false [PyVal.int 1] [("b", PyVal.int 2), ("a", PyVal.int 3)]
      = make_key false [PyVal.int 1] [("a", PyVal.int 3), ("b", PyVal.int 2)] :=
  C2_key_normalization.1 false [PyVal.int 1]
    [("b", PyVal.int 2), ("a", PyVal.int 3)]
    [("a", PyVal.int 3), ("b", PyVal.int 2)]
    (List.Perm.swap ("a", PyVal.int 3) ("b", PyVal.int 2) [])
    (by decide)

end TTLCache
